import Mathlib

/-!
Verification of the response-to-file-changes extraction pipeline
(`parseFileChanges`, `isValidFilePath`, `extractExplanation`,
`scanForSecurityIssues`, `determineFileActions` from `code-parser.ts`).

Strings are embedded as `List Char`.  Each JavaScript regular expression
used by the source is hand-translated into a deterministic matcher; the
translation follows the backtracking behaviour of the concrete pattern
(analysed per pattern, see the comments on each definition).
-/

namespace CodingApp

/-- Backtick character (code point 96). -/
def tick : Char := Char.ofNat 96

/-- Single-quote character (code point 39). -/
def squote : Char := Char.ofNat 39

/-- Double-quote character (code point 34). -/
def dquote : Char := Char.ofNat 34

/-- JavaScript whitespace class `\s` restricted to the code points that can
actually occur around the patterns in this code base (ASCII whitespace and
NBSP); also the class used by `String.prototype.trim`. -/
def jsWhite (c : Char) : Bool :=
  c = ' ' || c = '\t' || c = '\n' || c = '\r' ||
  c = Char.ofNat 11 || c = Char.ofNat 12 || c = Char.ofNat 160

/-- JavaScript `String.prototype.trim`: drop whitespace from both ends. -/
def jsTrim (l : List Char) : List Char :=
  ((l.dropWhile jsWhite).reverse.dropWhile jsWhite).reverse

/-- Translation of `String.prototype.startsWith`: `listStartsWith p s` is / an anchored
literal match of `p` at the start of `s`. -/
def listStartsWith : List Char → List Char → Bool
  | [], _ => true
  | _ :: _, [] => false
  | p :: ps, c :: cs => decide (p = c) && listStartsWith ps cs

/-- Translation of `String.prototype.includes`: `sub` occurs
as a contiguous substring of `s`. -/
def listContainsSub (sub : List Char) : List Char → Bool
  | [] => listStartsWith sub []
  | c :: cs => listStartsWith sub (c :: cs) || listContainsSub sub cs

/-- JS `\w` (word character): `[A-Za-z0-9_]`. -/
def isWordChar (c : Char) : Bool := c.isAlphanum || c = '_'

/-- Character class `[\w\-./]` of the path-character regex. -/
def isAllowedPathChar (c : Char) : Bool :=
  isWordChar c || c = '-' || c = '.' || c = '/'

/-- Case-insensitive equality of two char lists (ASCII case folding, which
is what a non-unicode JS `/i` regex performs on ASCII patterns). -/
def ciEq (a b : List Char) : Bool :=
  a.map Char.toLower == b.map Char.toLower

/-- File actions of the `FileChange` TypeScript interface. -/
inductive FileAction where
  | create
  | update
  | delete
deriving DecidableEq, Repr

/-- The `FileChange` record: `\x7b path, action, content \x7d`. -/
structure FileChange where
  path : List Char
  action : FileAction
  content : List Char
deriving DecidableEq, Repr

/-! ## Path validator (`isValidFilePath`) -/

/-- Test of `/\.[a-z0-9]+$/i`: the string ends in a dot followed by one or
more alphanumeric characters.  Implemented by inspecting the maximal
trailing alphanumeric run, which is the unique way the anchored pattern can
match. -/
def hasExtension (p : List Char) : Bool :=
  match (p.reverse).takeWhile Char.isAlphanum, (p.reverse).dropWhile Char.isAlphanum with
  | [], _ => false
  | _ :: _, d :: _ => decide (d = '.')
  | _ :: _, [] => false

/-- The allow-list of `/^(\.gitignore|\.env|\.env\.local|Dockerfile|Makefile|README)$/i`. -/
def configNames : List (List Char) :=
  [".gitignore", ".env", ".env.local", "Dockerfile", "Makefile", "README"].map String.toList

/-- Whole-string case-insensitive match against the config-file allow-list. -/
def isConfigFile (p : List Char) : Bool :=
  configNames.any (fun n => ciEq p n)

/-- Test of `/^[A-Z]:/i`: a drive-letter prefix. -/
def isDrivePrefix (p : List Char) : Bool :=
  match p with
  | c1 :: c2 :: _ => c1.isAlpha && decide (c2 = ':')
  | _ => false

/-- Function `isValidFilePath` from `code-parser.ts`.  The source is a chain of
early `return false` guards; the conjunction below is that chain. -/
def isValidFilePath (p : List Char) : Bool :=
  (hasExtension p || isConfigFile p)
    && !listContainsSub ("..".toList) p
    && !(listStartsWith ("/".toList) p || isDrivePrefix p)
    && decide (p.length ≤ 200)
    && (!p.isEmpty && p.all isAllowedPathChar)

/-! ## Pass 1 of `parseFileChanges`

The regex is `/```(?:filepath:)?([^\n`]+)\n([\s\S]*?)```/g`.
At a fence, the header group `[^\n`]+` can only match the maximal run of
characters that are neither newline nor backtick (any shorter prefix of
that run is followed by a non-newline character, so the mandatory `\n`
fails), hence matching at a position is deterministic: the run must be
nonempty and stop at a newline.  The optional `filepath:` tag is greedy:
it is consumed exactly when the header starts with it and at least one
header character remains.  The lazy body `[\s\S]*?` extends to the first
closing fence. -/

/-- The fence delimiter, three backticks. -/
def fence : List Char := [tick, tick, tick]

/-- Does `s` start with three backticks? -/
def startsFence (s : List Char) : Bool := listStartsWith fence s

/-- Split `s` at the first occurrence of three backticks:
returns (text before the fence, text after the fence). -/
def splitAtFence : List Char → Option (List Char × List Char)
  | [] => none
  | c :: cs =>
    if startsFence (c :: cs) then some ([], cs.drop 2)
    else
      match splitAtFence cs with
      | some (b, r) => some (c :: b, r)
      | none => none

/-- Maximal run of characters that are neither `\n` nor a backtick, and the
remainder beginning with the stopping character. -/
def fenceHeaderRun : List Char → List Char × List Char
  | [] => ([], [])
  | c :: cs =>
    if c = '\n' || c = tick then ([], c :: cs)
    else
      match fenceHeaderRun cs with
      | (run, rest) => (c :: run, rest)

/-- The literal tag `filepath:`. -/
def fpTag : List Char := "filepath:".toList

/-- Capture group 1 of the pass-1 regex given the full header run: the
greedy optional `(?:filepath:)?` strips the tag exactly when a nonempty
capture remains. -/
def captureOfHeader (h : List Char) : List Char :=
  if listStartsWith fpTag h && decide (9 < h.length) then h.drop 9 else h

/-- One attempt of the pass-1 regex anchored at the current position:
returns (capture group 1, body, remainder after the closing fence). -/
def tryMatch1 (s : List Char) : Option (List Char × List Char × List Char) :=
  if startsFence s then
    match fenceHeaderRun (s.drop 3) with
    | (hdr, stop) =>
      match stop with
      | c :: afterNl =>
        if c = '\n' && !hdr.isEmpty then
          match splitAtFence afterNl with
          | some (body, rest) => some (captureOfHeader hdr, body, rest)
          | none => none
        else none
      | [] => none
  else none

/-- All pass-1 matches in order (the `while exec` loop): scan forward one
character at a time; after a match continue after its closing fence.
Fuel is the length of the string; every step consumes at least one
character, so the fuel never runs out before the string does. -/
def matches1Aux : Nat → List Char → List (List Char × List Char)
  | 0, _ => []
  | _ + 1, [] => []
  | fuel + 1, c :: cs =>
    match tryMatch1 (c :: cs) with
    | some (cap, body, rest) => (cap, body) :: matches1Aux fuel rest
    | none => matches1Aux fuel cs

/-- All pass-1 regex matches of the input. -/
def matches1 (s : List Char) : List (List Char × List Char) :=
  matches1Aux s.length s

/-- Language names of the cleanup regex
`/^(typescript|javascript|tsx|jsx|ts|js|json|html|css|python|go|rust)$/i`. -/
def langNames : List (List Char) :=
  ["typescript", "javascript", "tsx", "jsx", "ts", "js", "json", "html",
   "css", "python", "go", "rust"].map String.toList

/-- Whole-string case-insensitive match against the language names. -/
def isLangName (p : List Char) : Bool :=
  langNames.any (fun n => ciEq p n)

/-- Body of the pass-1 `while` loop: from a regex match (capture, body),
apply the trims, skips and validation of the source and produce a
`FileChange` when the header survives. -/
def emit1 (m : List Char × List Char) : Option FileChange :=
  let pathPart := jsTrim m.1
  if pathPart.isEmpty || (pathPart.contains ' ' && !listStartsWith fpTag pathPart) then
    none
  else
    let fp0 := if listStartsWith fpTag pathPart then jsTrim (pathPart.drop 9) else pathPart
    let fp1 := if isLangName fp0 then [] else fp0
    if fp1.isEmpty || (!fp1.contains '.' && !fp1.contains '/') then none
    else if isValidFilePath fp1 then
      some ⟨fp1, FileAction.create, jsTrim m.2⟩
    else none

/-- The file changes pushed by pass 1, in order. -/
def pass1Files (s : List Char) : List FileChange :=
  (matches1 s).filterMap emit1

/-! ## Pass 2 of `parseFileChanges`

The regex is `/```(\w+)\n(\/\/\s*)?([^\n]+\.[a-z]+)\n([\s\S]*?)```/g`.
`(\w+)\n` again has a unique viable match (the maximal word run, which
must stop at a newline).  The optional `(\/\/\s*)?` is greedy: when the
text after that newline starts with `//` the engine first consumes `//`
and the longest whitespace run, then backtracks the `\s*` one character at
a time, and only if every one of those fails tries the alternative without
the group.  `([^\n]+\.[a-z]+)\n` anchored at a position matches exactly
the rest of the current line, and only when that line ends in a dot
followed by a nonempty lowercase run preceded by at least one character
(only the last dot of the line can be the `\.`, since `[a-z]+` must reach
the newline). -/

/-- Attempt of `([^\n]+\.[a-z]+)\n` at the current position: returns the
captured line and the remainder after its newline. -/
def group3At (s : List Char) : Option (List Char × List Char) :=
  let line := s.takeWhile (fun c => !decide (c = '\n'))
  match s.dropWhile (fun c => !decide (c = '\n')) with
  | _ :: rest =>
    match line.reverse.takeWhile Char.isLower, line.reverse.dropWhile Char.isLower with
    | _ :: _, d :: pre => if decide (d = '.') && !pre.isEmpty then some (line, rest) else none
    | _, _ => none
  | [] => none

/-- Attempt of `([^\n]+\.[a-z]+)\n([\s\S]*?)``` ` at the current position:
path line, then lazy body up to the first closing fence. -/
def pathLineAndBody (p : List Char) : Option (List Char × List Char × List Char) :=
  match group3At p with
  | some (line, afterNl) =>
    match splitAtFence afterNl with
    | some (body, rest) => some (line, body, rest)
    | none => none
  | none => none

/-- Greedy backtracking of `\s*` after `//`: try the suffix after `k`
whitespace characters, then after `k - 1`, ..., down to none. -/
def tryWsDesc (t : List Char) : Nat → Option (List Char × List Char × List Char)
  | 0 => pathLineAndBody t
  | k + 1 =>
    match pathLineAndBody (t.drop (k + 1)) with
    | some r => some r
    | none => tryWsDesc t k

/-- One attempt of the pass-2 regex anchored at the current position:
returns (capture group 3, body, remainder after the closing fence). -/
def tryMatch2 (s : List Char) : Option (List Char × List Char × List Char) :=
  if startsFence s then
    let rest := s.drop 3
    let w := rest.takeWhile isWordChar
    if w.isEmpty then none
    else
      match rest.drop w.length with
      | c :: afterNl =>
        if c = '\n' then
          if listStartsWith ("//".toList) afterNl then
            let t := afterNl.drop 2
            match tryWsDesc t (t.takeWhile jsWhite).length with
            | some r => some r
            | none => pathLineAndBody afterNl
          else pathLineAndBody afterNl
        else none
      | [] => none
  else none

/-- All pass-2 matches in order, scanning like `matches1Aux`. -/
def matches2Aux : Nat → List Char → List (List Char × List Char)
  | 0, _ => []
  | _ + 1, [] => []
  | fuel + 1, c :: cs =>
    match tryMatch2 (c :: cs) with
    | some (line, body, rest) => (line, body) :: matches2Aux fuel rest
    | none => matches2Aux fuel cs

/-- All pass-2 regex matches of the input. -/
def matches2 (s : List Char) : List (List Char × List Char) :=
  matches2Aux s.length s

/-- Body of the pass-2 `while` loop: skip a path already collected, then
validate and push. -/
def step2 (acc : List FileChange) (m : List Char × List Char) : List FileChange :=
  let possiblePath := jsTrim m.1
  if acc.any (fun f => decide (f.path = possiblePath)) then acc
  else if isValidFilePath possiblePath then
    acc ++ [⟨possiblePath, FileAction.create, jsTrim m.2⟩]
  else acc

/-- Function `parseFileChanges` from `code-parser.ts`: pass 1 pushes, then pass 2
pushes with the de-duplication check against everything collected so far. -/
def parseFileChanges (s : List Char) : List FileChange :=
  (matches2 s).foldl step2 (pass1Files s)

/-! ## `extractExplanation` -/

/-- Removal pass of `response.replace(/```[\s\S]*?```/g, ...)` with empty
replacement: at each position, if a fence starts here and another fence
occurs later, drop everything up to and including that closing fence and
continue after it; otherwise keep the character.  Fuel as in
`matches1Aux`. -/
def removeBlocksAux : Nat → List Char → List Char
  | 0, s => s
  | _ + 1, [] => []
  | fuel + 1, c :: cs =>
    if startsFence (c :: cs) then
      match splitAtFence ((c :: cs).drop 3) with
      | some (_, r) => removeBlocksAux fuel r
      | none => c :: removeBlocksAux fuel cs
    else c :: removeBlocksAux fuel cs

/-- Remove every fenced code block from the text. -/
def removeCodeBlocks (s : List Char) : List Char :=
  removeBlocksAux s.length s

/-- JavaScript `split('\n')`. -/
def splitLines : List Char → List (List Char)
  | [] => [[]]
  | c :: cs =>
    if c = '\n' then [] :: splitLines cs
    else
      match splitLines cs with
      | l :: ls => (c :: l) :: ls
      | [] => [[c]]

/-- The fixed fallback explanation. -/
def fallbackExplanation : List Char := "Changes applied successfully.".toList

/-- Function `extractExplanation` from `code-parser.ts`: remove code blocks, drop
blank lines, join, trim, and fall back to the fixed string when empty. -/
def extractExplanation (s : List Char) : List Char :=
  let text := removeCodeBlocks s
  let cleaned := jsTrim (List.intercalate ['\n']
    ((splitLines text).filter (fun l => !(jsTrim l).isEmpty)))
  if cleaned.isEmpty then fallbackExplanation else cleaned

/-! ## `scanForSecurityIssues`

Each pattern is tested once with `pattern.test(code)`, i.e. only the
existence of a match anywhere in the string matters.  For each of the
seven concrete patterns, matching anchored at a position is deterministic
(each greedy sub-quantifier has a unique viable extent because the
character that must follow it is excluded from its class), so existence of
a match is existence of a position where the anchored attempt succeeds. -/

/-- Strip a literal case-sensitive pattern from the front. -/
def stripCS : List Char → List Char → Option (List Char)
  | [], s => some s
  | _ :: _, [] => none
  | p :: ps, c :: cs => if c = p then stripCS ps cs else none

/-- Strip a literal pattern from the front, ASCII-case-insensitively. -/
def stripCi : List Char → List Char → Option (List Char)
  | [], s => some s
  | _ :: _, [] => none
  | p :: ps, c :: cs => if c.toLower = p.toLower then stripCi ps cs else none

/-- Tail `\s*[:=]\s*['"][^'"]\x7bmin,\x7d['"]` shared by the API-key,
secret and password patterns: optional whitespace, `:` or `=`, optional
whitespace, a quote, at least `minLen` non-quote characters, a quote. -/
def kvTail (minLen : Nat) (s : List Char) : Bool :=
  match s.dropWhile jsWhite with
  | c :: s2 =>
    if c = ':' || c = '=' then
      match s2.dropWhile jsWhite with
      | q :: s4 =>
        if q = squote || q = dquote then
          let run := s4.takeWhile (fun d => !(d = squote || d = dquote))
          decide (minLen ≤ run.length) && !(s4.drop run.length).isEmpty
        else false
      | [] => false
    else false
  | [] => false

/-- Anchored attempt of `/api[_-]?key\s*[:=]\s*['"][^'"]\x7b10,\x7d['"]/i`. -/
def apiKeyAt (s : List Char) : Bool :=
  match stripCi ("api".toList) s with
  | none => false
  | some s1 =>
    let s2 := match s1 with
      | c :: rest => if c = '_' || c = '-' then rest else s1
      | [] => s1
    match stripCi ("key".toList) s2 with
    | none => false
    | some s3 => kvTail 10 s3

/-- Anchored attempt of `/secret\s*[:=]\s*['"][^'"]\x7b10,\x7d['"]/i`. -/
def secretAt (s : List Char) : Bool :=
  match stripCi ("secret".toList) s with
  | none => false
  | some s1 => kvTail 10 s1

/-- Anchored attempt of `/password\s*[:=]\s*['"][^'"]+['"]/i`. -/
def passwordAt (s : List Char) : Bool :=
  match stripCi ("password".toList) s with
  | none => false
  | some s1 => kvTail 1 s1

/-- Anchored attempt of `/sk[-_](live|test)[-_][a-zA-Z0-9]+/`. -/
def stripeAt (s : List Char) : Bool :=
  match stripCS ("sk".toList) s with
  | none => false
  | some s1 =>
    match s1 with
    | c :: s2 =>
      if c = '-' || c = '_' then
        let afterWord :=
          match stripCS ("live".toList) s2 with
          | some r => some r
          | none => stripCS ("test".toList) s2
        match afterWord with
        | some (d :: e :: _) => (d = '-' || d = '_') && e.isAlphanum
        | _ => false
      else false
    | [] => false

/-- Class `[0-9A-Z]`. -/
def isUpperDigit (c : Char) : Bool := c.isUpper || c.isDigit

/-- Anchored attempt of `/AKIA[0-9A-Z]\x7b16\x7d/`. -/
def awsAt (s : List Char) : Bool :=
  match stripCS ("AKIA".toList) s with
  | some s1 => decide (16 ≤ s1.length) && (s1.take 16).all isUpperDigit
  | none => false

/-- Anchored attempt of `/ghp_[a-zA-Z0-9]\x7b36\x7d/`. -/
def ghpAt (s : List Char) : Bool :=
  match stripCS ("ghp_".toList) s with
  | some s1 => decide (36 ≤ s1.length) && (s1.take 36).all Char.isAlphanum
  | none => false

/-- Token class `[a-zA-Z0-9\-._~+/]` of the Bearer pattern. -/
def bearerTokenChar (c : Char) : Bool :=
  c.isAlphanum || c = '-' || c = '.' || c = '_' || c = '~' || c = '+' || c = '/'

/-- Anchored attempt of `/Bearer\s+[a-zA-Z0-9\-._~+/]+=\x7b0,2\x7d/`
(the trailing `=\x7b0,2\x7d` is always satisfiable with zero `=`). -/
def bearerAt (s : List Char) : Bool :=
  match stripCS ("Bearer".toList) s with
  | some s1 =>
    match s1 with
    | w :: _ =>
      jsWhite w &&
        (match s1.dropWhile jsWhite with
         | c :: _ => bearerTokenChar c
         | [] => false)
    | [] => false
  | none => false

/-- Existence of a match: some position at which the anchored attempt
succeeds (the scan of `RegExp.prototype.test`). -/
def anyPos (f : List Char → Bool) : List Char → Bool
  | [] => f []
  | c :: cs => f (c :: cs) || anyPos f cs

/-- The ordered pattern list of `scanForSecurityIssues`. -/
def secPatterns : List ((List Char → Bool) × String) :=
  [(apiKeyAt, "API key"),
   (secretAt, "Secret"),
   (passwordAt, "Password"),
   (stripeAt, "Stripe key"),
   (awsAt, "AWS access key"),
   (ghpAt, "GitHub token"),
   (bearerAt, "Bearer token")]

/-- The template string pushed for a matched category. -/
def findingMessage (name : String) : String :=
  "Potential " ++ name ++ " detected in generated code"

/-- Function `scanForSecurityIssues` from `code-parser.ts`: one finding per pattern
category whose test matches, in the fixed order of the pattern list. -/
def scanForSecurityIssues (code : List Char) : List String :=
  (secPatterns.filter (fun p => anyPos p.1 code)).map (fun p => findingMessage p.2)

/-! ## `determineFileActions` -/

/-- Function `determineFileActions` from `code-parser.ts`: map over the changes,
setting `action` to `update` when the path is among the existing paths and
to `create` otherwise. -/
def determineFileActions (changes : List FileChange) (existingPaths : List (List Char)) :
    List FileChange :=
  changes.map (fun change =>
    { change with
        action := if existingPaths.contains change.path then FileAction.update
                  else FileAction.create })

/-! ## Concrete inputs used by the claim theorems -/

/-- Input with two pass-1 blocks carrying the same header path. -/
def c1Input : List Char :=
  ("```filepath:a.ts\nx\n```\n```filepath:a.ts\ny\n```").toList

/-- The spec's reference input: one tagged block plus trailing prose. -/
def c5Input : List Char :=
  ("```filepath:src/App.tsx\nexport default function App() \x7b\x7d\n```\nCreated the app component.").toList

/-- Input consisting only of fenced code blocks. -/
def c6CodeOnlyInput : List Char := ("```a\nb``````c\nd```").toList

/-- Input ending in an opening fence that never closes. -/
def c7Input : List Char := ("Hello\n```\nsecret stuff").toList

/-- Spec-side characterization of the path validator, written from the
claim's wording, to be proved equivalent to the source's `isValidFilePath`. -/
def isValidFilePathSpec (p : List Char) : Prop :=
  ((∃ a b, p = a ++ '.' :: b ∧ b ≠ [] ∧ ∀ c ∈ b, Char.isAlphanum c = true) ∨
    (∃ n ∈ configNames, ciEq p n = true)) ∧
  ¬ ("..".toList <:+: p) ∧
  p.head? ≠ some '/' ∧
  (¬ ∃ c rest, p = c :: ':' :: rest ∧ c.isAlpha = true) ∧
  p.length ≤ 200 ∧
  ∀ c ∈ p, (c.isAlphanum = true ∨ c = '_' ∨ c = '-' ∨ c = '.' ∨ c = '/')

/-! ## Helper lemmas -/

theorem mem_takeWhile_pred {q : Char → Bool} :
    ∀ {l : List Char} {c : Char}, c ∈ l.takeWhile q → q c = true := by
  intro l
  induction l with
  | nil => intro c h; simp [List.takeWhile] at h
  | cons a as ih =>
    intro c h
    by_cases hq : q a
    · rw [List.takeWhile_cons_of_pos hq, List.mem_cons] at h
      rcases h with rfl | h
      · exact hq
      · exact ih h
    · rw [List.takeWhile_cons_of_neg hq] at h
      simp at h

theorem mem_dropWhile_of_pred_false {q : Char → Bool} :
    ∀ {l : List Char} {c : Char}, q c = false → c ∈ l → c ∈ l.dropWhile q := by
  intro l
  induction l with
  | nil => intro c _ h; simp at h
  | cons a as ih =>
    intro c hc h
    rw [List.mem_cons] at h
    by_cases hq : q a
    · rw [List.dropWhile_cons_of_pos hq]
      rcases h with rfl | h
      · rw [hq] at hc; cases hc
      · exact ih hc h
    · rw [List.dropWhile_cons_of_neg hq]
      rw [List.mem_cons]
      exact h

theorem mem_jsTrim {l : List Char} {c : Char}
    (hc : jsWhite c = false) (h : c ∈ l) : c ∈ jsTrim l := by
  unfold jsTrim
  rw [List.mem_reverse]
  apply mem_dropWhile_of_pred_false hc
  rw [List.mem_reverse]
  exact mem_dropWhile_of_pred_false hc h

theorem listStartsWith_iff : ∀ (p s : List Char),
    listStartsWith p s = true ↔ p <+: s := by
  intro p
  induction p with
  | nil => intro s; simp [listStartsWith, List.nil_prefix]
  | cons a ps ih =>
    intro s
    cases s with
    | nil =>
      simp only [listStartsWith, List.prefix_nil, Bool.false_eq_true, false_iff]
      simp
    | cons c cs =>
      simp [listStartsWith, ih, List.cons_prefix_cons]

theorem listContainsSub_iff : ∀ (p s : List Char),
    listContainsSub p s = true ↔ p <:+: s := by
  intro p s
  induction s with
  | nil =>
    simp [listContainsSub, listStartsWith_iff, List.prefix_nil, List.infix_nil]
  | cons c cs ih =>
    simp only [listContainsSub, Bool.or_eq_true, listStartsWith_iff, ih,
      List.infix_cons_iff]

theorem takeWhile_append_all {q : Char → Bool} :
    ∀ (l₁ : List Char) {x : Char} (l₂ : List Char),
      (∀ c ∈ l₁, q c = true) → q x = false →
      (l₁ ++ x :: l₂).takeWhile q = l₁ ∧ (l₁ ++ x :: l₂).dropWhile q = x :: l₂ := by
  intro l₁
  induction l₁ with
  | nil =>
    intro x l₂ _ hx
    have hx' : ¬ q x = true := by simp [hx]
    constructor
    · simpa using List.takeWhile_cons_of_neg (l := l₂) hx'
    · simpa using List.dropWhile_cons_of_neg (l := l₂) hx'
  | cons a as ih =>
    intro x l₂ hall hx
    have ha : q a = true := hall a (by simp)
    have := ih l₂ (fun c hc => hall c (by simp [hc])) hx
    constructor
    · rw [List.cons_append, List.takeWhile_cons_of_pos ha, this.1]
    · rw [List.cons_append, List.dropWhile_cons_of_pos ha, this.2]

theorem hasExtension_iff (p : List Char) :
    hasExtension p = true ↔
      ∃ a b, p = a ++ '.' :: b ∧ b ≠ [] ∧ ∀ c ∈ b, Char.isAlphanum c = true := by
  constructor
  · intro h
    unfold hasExtension at h
    split at h
    · simp at h
    · rename_i x xs d ds htw hdw
      rw [decide_eq_true_eq] at h
      subst h
      have hsplit : p.reverse = (x :: xs) ++ '.' :: ds := by
        rw [← htw, ← hdw, List.takeWhile_append_dropWhile]
      refine ⟨ds.reverse, (x :: xs).reverse, ?_, by simp, ?_⟩
      · have := congrArg List.reverse hsplit
        rw [List.reverse_reverse, List.reverse_append] at this
        simpa using this
      · intro c hc
        rw [List.mem_reverse] at hc
        exact mem_takeWhile_pred (htw ▸ hc)
    · simp at h
  · rintro ⟨a, b, rfl, hb, hall⟩
    have hrev : (a ++ '.' :: b).reverse = b.reverse ++ '.' :: a.reverse := by
      simp
    have hdot : Char.isAlphanum '.' = false := by decide
    have hb' : ∀ c ∈ b.reverse, Char.isAlphanum c = true := by
      intro c hc; exact hall c (List.mem_reverse.mp hc)
    have htw := (takeWhile_append_all b.reverse a.reverse hb' hdot).1
    have hdw := (takeWhile_append_all b.reverse a.reverse hb' hdot).2
    obtain ⟨y, ys, hyys⟩ : ∃ y ys, b.reverse = y :: ys := by
      cases hbr : b.reverse with
      | nil => exact absurd (by simpa using hbr) hb
      | cons y ys => exact ⟨y, ys, rfl⟩
    unfold hasExtension
    rw [hrev, htw, hdw, hyys]
    simp

theorem isValidFilePath_iff_parts (p : List Char) :
    isValidFilePath p = true ↔
      (hasExtension p = true ∨ isConfigFile p = true) ∧
      listContainsSub ("..".toList) p = false ∧
      listStartsWith ("/".toList) p = false ∧
      isDrivePrefix p = false ∧
      p.length ≤ 200 ∧
      p ≠ [] ∧
      (∀ c ∈ p, isAllowedPathChar c = true) := by
  simp [isValidFilePath, List.all_eq_true, List.isEmpty_iff, and_assoc]

theorem isValidFilePath_head_ne (p : List Char)
    (h : listStartsWith ("/".toList) p = false) : p.head? ≠ some '/' := by
  cases p with
  | nil => simp
  | cons c cs =>
    simp only [listStartsWith, List.head?_cons, ne_eq, Option.some.injEq]
    intro hc
    subst hc
    simp [listStartsWith] at h

/-! ## Structural lemmas about the two extraction passes -/

theorem dot_or_slash_of_gate {l : List Char}
    (h : ¬ (l.isEmpty || (!l.contains '.' && !l.contains '/')) = true) :
    '.' ∈ l ∨ '/' ∈ l := by
  simp only [Bool.or_eq_true, Bool.and_eq_true, Bool.not_eq_true', not_or] at h
  rcases h with ⟨-, h⟩
  rw [not_and_or] at h
  rcases h with h | h
  · left
    cases hc : l.contains '.' with
    | false => exact absurd hc h
    | true => exact List.elem_iff.mp hc
  · right
    cases hc : l.contains '/' with
    | false => exact absurd hc h
    | true => exact List.elem_iff.mp hc

theorem emit1_some {m : List Char × List Char} {fc : FileChange}
    (h : emit1 m = some fc) :
    isValidFilePath fc.path = true ∧
    ('.' ∈ fc.path ∨ '/' ∈ fc.path) ∧
    fc.action = FileAction.create := by
  simp only [emit1] at h
  repeat' split at h
  all_goals try exact Option.noConfusion h
  all_goals rw [Option.some.injEq] at h
  all_goals subst h
  all_goals exact ⟨by assumption, dot_or_slash_of_gate (by assumption), rfl⟩

theorem mem_pass1Files {s : List Char} {fc : FileChange}
    (h : fc ∈ pass1Files s) :
    isValidFilePath fc.path = true ∧
    ('.' ∈ fc.path ∨ '/' ∈ fc.path) ∧
    fc.action = FileAction.create := by
  unfold pass1Files at h
  rw [List.mem_filterMap] at h
  obtain ⟨m, _, hm⟩ := h
  exact emit1_some hm

theorem step2_shape (acc : List FileChange) (m : List Char × List Char) :
    step2 acc m = acc ∨
      (step2 acc m = acc ++ [⟨jsTrim m.1, FileAction.create, jsTrim m.2⟩] ∧
       isValidFilePath (jsTrim m.1) = true ∧
       ∀ x ∈ acc, x.path ≠ jsTrim m.1) := by
  simp only [step2]
  split
  · left; rfl
  · rename_i hany
    split
    · rename_i hval
      right
      refine ⟨rfl, hval, ?_⟩
      intro x hx hpath
      apply hany
      rw [List.any_eq_true]
      exact ⟨x, hx, by simpa using hpath⟩
    · left; rfl

theorem mem_foldl_step2 :
    ∀ (ms : List (List Char × List Char)) (init : List FileChange) (x : FileChange),
      x ∈ ms.foldl step2 init →
      x ∈ init ∨ ∃ m ∈ ms, x = ⟨jsTrim m.1, FileAction.create, jsTrim m.2⟩ ∧
        isValidFilePath (jsTrim m.1) = true := by
  intro ms
  induction ms with
  | nil => intro init x h; left; exact h
  | cons m ms ih =>
    intro init x h
    rw [List.foldl_cons] at h
    rcases ih (step2 init m) x h with h' | ⟨m', hm', he⟩
    · rcases step2_shape init m with hs | ⟨hs, hval, _⟩
      · rw [hs] at h'; left; exact h'
      · rw [hs, List.mem_append] at h'
        rcases h' with h' | h'
        · left; exact h'
        · right
          refine ⟨m, by simp, ?_, hval⟩
          simpa using h'
    · right; exact ⟨m', by simp [hm'], he⟩

theorem foldl_step2_decomp :
    ∀ (ms : List (List Char × List Char)) (init : List FileChange),
      ∃ extra, ms.foldl step2 init = init ++ extra ∧
        (∀ a ∈ init, ∀ b ∈ extra, a.path ≠ b.path) ∧
        extra.Pairwise (fun a b => a.path ≠ b.path) := by
  intro ms
  induction ms with
  | nil =>
    intro init
    exact ⟨[], by simp, by simp, by simp⟩
  | cons m ms ih =>
    intro init
    rcases step2_shape init m with hs | ⟨hs, _, hfresh⟩
    · obtain ⟨extra, he, hcross, hpw⟩ := ih init
      exact ⟨extra, by rw [List.foldl_cons, hs]; exact he, hcross, hpw⟩
    · obtain ⟨extra, he, hcross, hpw⟩ := ih (init ++ [⟨jsTrim m.1, FileAction.create, jsTrim m.2⟩])
      refine ⟨⟨jsTrim m.1, FileAction.create, jsTrim m.2⟩ :: extra, ?_, ?_, ?_⟩
      · rw [List.foldl_cons, hs, he]
        simp
      · intro a ha b hb
        rw [List.mem_cons] at hb
        rcases hb with rfl | hb
        · exact hfresh a ha
        · exact hcross a (by simp [ha]) b hb
      · rw [List.pairwise_cons]
        refine ⟨?_, hpw⟩
        intro b hb
        exact hcross _ (by simp) b hb

theorem group3At_dot {s line rest : List Char}
    (h : group3At s = some (line, rest)) : '.' ∈ line := by
  simp only [group3At] at h
  repeat' split at h
  all_goals try exact Option.noConfusion h
  rename_i x xs d pre htw hdw hcond
  rw [Option.some.injEq, Prod.mk.injEq] at h
  obtain ⟨h1, h2⟩ := h
  subst line
  rw [Bool.and_eq_true, decide_eq_true_eq] at hcond
  obtain ⟨rfl, -⟩ := hcond
  have hsplit := List.takeWhile_append_dropWhile (p := Char.isLower)
    (l := (List.takeWhile (fun c => !decide (c = '\n')) s).reverse)
  rw [htw, hdw] at hsplit
  have hmem : '.' ∈ (List.takeWhile (fun c => !decide (c = '\n')) s).reverse := by
    rw [← hsplit]; simp
  exact List.mem_reverse.mp hmem

theorem pathLineAndBody_dot {p line body rest : List Char}
    (h : pathLineAndBody p = some (line, body, rest)) : '.' ∈ line := by
  simp only [pathLineAndBody] at h
  split at h
  · rename_i line2 afterNl heq
    split at h
    · rename_i body2 rest2 heq2
      rw [Option.some.injEq, Prod.mk.injEq, Prod.mk.injEq] at h
      obtain ⟨h1, -, -⟩ := h
      exact h1 ▸ group3At_dot heq
    · exact Option.noConfusion h
  · exact Option.noConfusion h

theorem tryWsDesc_dot {t : List Char} :
    ∀ {k : Nat} {line body rest : List Char},
      tryWsDesc t k = some (line, body, rest) → '.' ∈ line := by
  intro k
  induction k with
  | zero => intro line body rest h; exact pathLineAndBody_dot h
  | succ n ih =>
    intro line body rest h
    simp only [tryWsDesc] at h
    split at h
    · rename_i r hr
      rw [Option.some.injEq] at h
      subst h
      exact pathLineAndBody_dot hr
    · exact ih h

theorem tryMatch2_dot {s line body rest : List Char}
    (h : tryMatch2 s = some (line, body, rest)) : '.' ∈ line := by
  simp only [tryMatch2] at h
  repeat' split at h
  all_goals try exact Option.noConfusion h
  all_goals try exact pathLineAndBody_dot h
  rename_i r hws
  rw [Option.some.injEq] at h
  subst h
  exact tryWsDesc_dot hws

theorem matches2Aux_dot :
    ∀ (fuel : Nat) (s : List Char) (m : List Char × List Char),
      m ∈ matches2Aux fuel s → '.' ∈ m.1 := by
  intro fuel
  induction fuel with
  | zero => intro s m h; simp [matches2Aux] at h
  | succ f ih =>
    intro s m h
    cases s with
    | nil => simp [matches2Aux] at h
    | cons c cs =>
      rw [matches2Aux] at h
      split at h
      · rename_i line body rest heq
        rw [List.mem_cons] at h
        rcases h with rfl | h
        · exact tryMatch2_dot heq
        · exact ih rest m h
      · exact ih cs m h

theorem matches2_dot {s : List Char} {m : List Char × List Char}
    (h : m ∈ matches2 s) : '.' ∈ m.1 :=
  matches2Aux_dot s.length s m h

/-! ## Lemmas about code-block removal on backtick-free text -/

theorem startsFence_false_of_head {c : Char} {cs : List Char} (h : c ≠ tick) :
    startsFence (c :: cs) = false := by
  simp [startsFence, fence, listStartsWith]
  intro h'
  exact absurd h'.symm h

theorem splitAtFence_none {s : List Char} (h : tick ∉ s) : splitAtFence s = none := by
  induction s with
  | nil => rfl
  | cons c cs ih =>
    rw [List.mem_cons, not_or] at h
    rw [splitAtFence, startsFence_false_of_head (fun hc => h.1 hc.symm)]
    simp only [Bool.false_eq_true, if_false]
    rw [ih h.2]

theorem removeBlocksAux_noTick :
    ∀ (f : Nat) (s : List Char), tick ∉ s → removeBlocksAux f s = s := by
  intro f
  induction f with
  | zero => intro s _; rfl
  | succ n ih =>
    intro s hs
    cases s with
    | nil => rfl
    | cons c cs =>
      rw [List.mem_cons, not_or] at hs
      rw [removeBlocksAux, startsFence_false_of_head (fun hc => hs.1 hc.symm)]
      simp only [Bool.false_eq_true, if_false]
      rw [ih cs hs.2]

theorem startsFence_tick_tick {b : List Char} (hb : tick ∉ b) :
    startsFence (tick :: tick :: b) = false := by
  cases b with
  | nil => rfl
  | cons b0 bs =>
    have h0 : ¬ tick = b0 := fun h => hb (by simp [← h])
    simp [startsFence, fence, listStartsWith, h0]

theorem startsFence_tick {b : List Char} (hb : tick ∉ b) :
    startsFence (tick :: b) = false := by
  cases b with
  | nil => rfl
  | cons b0 bs =>
    have h0 : ¬ tick = b0 := fun h => hb (by simp [← h])
    simp [startsFence, fence, listStartsWith, h0]

theorem removeBlocksAux_fence :
    ∀ (f : Nat) (b : List Char), tick ∉ b →
      removeBlocksAux f (tick :: tick :: tick :: b) = tick :: tick :: tick :: b := by
  intro f b hb
  cases f with
  | zero => rfl
  | succ f1 =>
    rw [removeBlocksAux]
    have hsf : startsFence (tick :: tick :: tick :: b) = true := by
      simp [startsFence, fence, listStartsWith]
    rw [hsf]
    simp only [if_true, List.drop_succ_cons, List.drop_zero]
    rw [splitAtFence_none hb]
    cases f1 with
    | zero => rfl
    | succ f2 =>
      rw [removeBlocksAux, startsFence_tick_tick hb]
      simp only [Bool.false_eq_true, if_false]
      cases f2 with
      | zero => rfl
      | succ f3 =>
        rw [removeBlocksAux, startsFence_tick hb]
        simp only [Bool.false_eq_true, if_false]
        rw [removeBlocksAux_noTick f3 b hb]

theorem removeBlocksAux_unclosed :
    ∀ (a : List Char) (f : Nat) (b : List Char), tick ∉ a → tick ∉ b →
      removeBlocksAux f (a ++ tick :: tick :: tick :: b) =
        a ++ tick :: tick :: tick :: b := by
  intro a
  induction a with
  | nil => intro f b _ hb; simpa using removeBlocksAux_fence f b hb
  | cons c as ih =>
    intro f b ha hb
    rw [List.mem_cons, not_or] at ha
    cases f with
    | zero => rfl
    | succ f1 =>
      rw [List.cons_append, removeBlocksAux,
        startsFence_false_of_head (fun hc => ha.1 hc.symm)]
      simp only [Bool.false_eq_true, if_false]
      rw [ih f1 b ha.2 hb]

theorem removeCodeBlocks_unclosed {a b : List Char}
    (ha : tick ∉ a) (hb : tick ∉ b) :
    removeCodeBlocks (a ++ tick :: tick :: tick :: b) =
      a ++ tick :: tick :: tick :: b :=
  removeBlocksAux_unclosed a _ b ha hb

/-! ## Lemmas about the secret scanner -/

theorem scan_sublist (code : List Char) :
    List.Sublist (scanForSecurityIssues code) (secPatterns.map (fun p => findingMessage p.2)) :=
  List.Sublist.map _ (List.filter_sublist _)

/-! ## Claim theorems -/

/-- C1 counterexample: pass 1 performs no de-duplication, so a response
with two `filepath:a.ts` blocks yields two FileChanges with identical
path — the claimed invariant fails. -/
theorem c1_counterexample :
    (parseFileChanges c1Input).map FileChange.path =
      ["a.ts".toList, "a.ts".toList] ∧
    ¬ ((parseFileChanges c1Input).map FileChange.path).Nodup := by
  constructor
  · decide
  · decide

/-- C1 (amended): only pass 2 de-duplicates: every FileChange appended by
the pass-2 loop has a path distinct from all earlier collected paths (so
when pass 2 would repeat a path, only the first occurrence is kept), while
pass-1 entries may repeat among themselves. -/
theorem c1_amended (s : List Char) :
    List.Pairwise (fun a b => a.path ≠ b.path)
      ((parseFileChanges s).drop (pass1Files s).length) ∧
    ∀ a ∈ (parseFileChanges s).take (pass1Files s).length,
      ∀ b ∈ (parseFileChanges s).drop (pass1Files s).length, a.path ≠ b.path := by
  obtain ⟨extra, he, hcross, hpw⟩ := foldl_step2_decomp (matches2 s) (pass1Files s)
  unfold parseFileChanges
  rw [he, List.drop_left, List.take_left]
  exact ⟨hpw, fun a ha b hb => hcross a ha b hb⟩

/-- C1 amended witness at a concrete input with one pass-1 and one pass-2
file. -/
theorem c1_amended_witness :
    (⟨"a.ts".toList, FileAction.create, "x".toList⟩ : FileChange).path ≠
      (⟨"b.js".toList, FileAction.create, "y".toList⟩ : FileChange).path :=
  (c1_amended (("```filepath:a.ts\nx\n```\n```ts\nb.js\ny\n```").toList)).2
    _ (by decide) _ (by decide)

/-- C2: every FileChange returned by `parseFileChanges` has a path
accepted by `isValidFilePath`; in particular no leading slash, no `..`
substring, length at most 200, and only word characters, hyphen, dot and
slash. -/
theorem c2_extracted_paths_valid (s : List Char) (fc : FileChange)
    (h : fc ∈ parseFileChanges s) :
    isValidFilePath fc.path = true ∧
    fc.path.head? ≠ some '/' ∧
    ¬ ("..".toList <:+: fc.path) ∧
    fc.path.length ≤ 200 ∧
    (∀ c ∈ fc.path, isAllowedPathChar c = true) := by
  have hval : isValidFilePath fc.path = true := by
    unfold parseFileChanges at h
    rcases mem_foldl_step2 (matches2 s) (pass1Files s) fc h with h' | ⟨m, hm, he, hv⟩
    · exact (mem_pass1Files h').1
    · rw [he]; exact hv
  have hparts := (isValidFilePath_iff_parts fc.path).mp hval
  refine ⟨hval, isValidFilePath_head_ne _ hparts.2.2.1, ?_,
    hparts.2.2.2.2.1, hparts.2.2.2.2.2.2⟩
  intro hinf
  have hcs := (listContainsSub_iff ("..".toList) fc.path).mpr hinf
  rw [hparts.2.1] at hcs
  cases hcs

/-- C2 witness at a concrete extracted file. -/
theorem c2_extracted_paths_valid_witness :
    isValidFilePath ("lib/util.ts".toList) = true :=
  (c2_extracted_paths_valid (("```filepath:lib/util.ts\ncode\n```").toList)
    ⟨"lib/util.ts".toList, FileAction.create, "code".toList⟩ (by decide)).1

/-- C4: the action classifier is a pure map preserving length, order,
paths and contents; each action is `update` exactly for existing paths and
`create` otherwise, and `delete` never appears. -/
theorem c4_classify (changes : List FileChange) (existing : List (List Char)) :
    (determineFileActions changes existing).length = changes.length ∧
    (∀ (i : Nat) (oc : FileChange), changes[i]? = some oc →
      (determineFileActions changes existing)[i]? =
        some { oc with
                 action := if oc.path ∈ existing then FileAction.update
                           else FileAction.create }) ∧
    (∀ fc ∈ determineFileActions changes existing, fc.action ≠ FileAction.delete) := by
  refine ⟨by simp [determineFileActions], ?_, ?_⟩
  · intro i oc h
    unfold determineFileActions
    rw [List.getElem?_map, h]
    simp only [Option.map_some']
    by_cases hmem : oc.path ∈ existing
    · rw [if_pos hmem]
      have hc : existing.contains oc.path = true := List.elem_iff.mpr hmem
      rw [hc]
      simp
    · rw [if_neg hmem]
      have hc : existing.contains oc.path = false := by
        cases hcc : existing.contains oc.path
        · rfl
        · exact absurd (List.elem_iff.mp hcc) hmem
      rw [hc]
      simp
  · intro fc hfc
    unfold determineFileActions at hfc
    rw [List.mem_map] at hfc
    obtain ⟨oc, -, rfl⟩ := hfc
    dsimp only
    split <;> decide

/-- C4 witness matching the spec example: an existing path is classified
as `update`. -/
theorem c4_classify_witness :
    (determineFileActions [⟨"src/App.tsx".toList, FileAction.create, "x".toList⟩]
        ["src/App.tsx".toList])[0]? =
      some ⟨"src/App.tsx".toList, FileAction.update, "x".toList⟩ := by
  have h := (c4_classify
    [⟨"src/App.tsx".toList, FileAction.create, "x".toList⟩]
    ["src/App.tsx".toList]).2.1 0
    ⟨"src/App.tsx".toList, FileAction.create, "x".toList⟩ (by decide)
  rw [if_pos (by decide)] at h
  exact h

/-- C5: on the reference input, extraction yields exactly one FileChange
with path `src/App.tsx` and the trimmed block body, and the explanation is
exactly the trailing prose. -/
theorem c5_example :
    parseFileChanges c5Input =
      [⟨"src/App.tsx".toList, FileAction.create,
        "export default function App() \x7b\x7d".toList⟩] ∧
    extractExplanation c5Input = "Created the app component.".toList := by
  constructor
  · decide
  · decide

/-- C6: `extractExplanation` always returns a non-empty string, and on the
empty input and on an input consisting only of fenced code blocks it
returns exactly the fixed fallback string. -/
theorem c6_explanation_nonempty :
    (∀ s : List Char, extractExplanation s ≠ []) ∧
    extractExplanation [] = fallbackExplanation ∧
    extractExplanation c6CodeOnlyInput = fallbackExplanation := by
  refine ⟨?_, by decide, by decide⟩
  intro s
  simp only [extractExplanation]
  split
  · exact by decide
  · rename_i h
    intro heq
    exact h (by rw [heq]; rfl)

/-- C7 counterexample: the removal regex requires a closing fence, so the
text of an unclosed block is NOT removed — it appears verbatim in the
returned explanation, contradicting the claim. -/
theorem c7_counterexample :
    extractExplanation c7Input = c7Input ∧
    "secret stuff".toList <:+: extractExplanation c7Input := by
  have h1 : extractExplanation c7Input = c7Input := by decide
  refine ⟨h1, ?_⟩
  rw [h1]
  exact (listContainsSub_iff _ _).mp (by decide)

/-- C7 (amended): `extractExplanation` tolerates unclosed fences in that
code-block removal is bounded by a closing fence: an opening fence not
followed by any further fence matches nothing, the text is kept, and the
function still returns normally (shown on backtick-free surroundings, and
concretely on `c7Input`). -/
theorem c7_amended :
    (∀ a b : List Char, tick ∉ a → tick ∉ b →
      removeCodeBlocks (a ++ tick :: tick :: tick :: b) =
        a ++ tick :: tick :: tick :: b) ∧
    extractExplanation c7Input = c7Input :=
  ⟨fun _ _ ha hb => removeCodeBlocks_unclosed ha hb, by decide⟩

/-- C7 amended witness at concrete backtick-free surroundings. -/
theorem c7_amended_witness :
    removeCodeBlocks (("Hello\n").toList ++ tick :: tick :: tick :: ("\nsecret stuff").toList) =
      ("Hello\n").toList ++ tick :: tick :: tick :: ("\nsecret stuff").toList :=
  c7_amended.1 _ _ (by decide) (by decide)

/-- C8: the secret scanner returns at most one finding per category: its
output length is between 0 and 7 and contains no duplicate finding.  (In
this embedding all pipeline functions are total Lean functions, which is
the shallow counterpart of "never raises".) -/
theorem c8_scan_safety (code : List Char) :
    (scanForSecurityIssues code).length ≤ 7 ∧
    (scanForSecurityIssues code).Nodup := by
  have hsub := scan_sublist code
  constructor
  · have hlen := hsub.length_le
    simpa [secPatterns] using hlen
  · exact List.Nodup.sublist hsub (by decide)

/-- C9: every extracted path contains a dot or a slash, hence the
extensionless allow-list names `README`, `Dockerfile`, `Makefile` can
never be produced by the extractor even though the validator accepts
them. -/
theorem c9_no_extensionless_names (s : List Char) (fc : FileChange)
    (h : fc ∈ parseFileChanges s) :
    ('.' ∈ fc.path ∨ '/' ∈ fc.path) ∧
    fc.path ≠ "README".toList ∧
    fc.path ≠ "Dockerfile".toList ∧
    fc.path ≠ "Makefile".toList := by
  have hdot : '.' ∈ fc.path ∨ '/' ∈ fc.path := by
    unfold parseFileChanges at h
    rcases mem_foldl_step2 (matches2 s) (pass1Files s) fc h with h' | ⟨m, hm, he, -⟩
    · exact (mem_pass1Files h').2.1
    · left
      rw [he]
      exact mem_jsTrim (by decide) (matches2_dot hm)
  refine ⟨hdot, ?_, ?_, ?_⟩ <;>
    (intro heq; rw [heq] at hdot; exact absurd hdot (by decide))

/-- C9 witness at a concrete extracted file. -/
theorem c9_no_extensionless_names_witness :
    '.' ∈ ("a.ts".toList : List Char) ∨ '/' ∈ ("a.ts".toList : List Char) :=
  (c9_no_extensionless_names (("```filepath:a.ts\nx\n```").toList)
    ⟨"a.ts".toList, FileAction.create, "x".toList⟩ (by decide)).1

/-- C10: every finding is exactly the string `Potential <name> detected in
generated code` for one of the seven category names, and findings appear
in the fixed category order. -/
theorem c10_scan_message_forms (code : List Char) :
    List.Sublist (scanForSecurityIssues code)
      ["Potential API key detected in generated code",
       "Potential Secret detected in generated code",
       "Potential Password detected in generated code",
       "Potential Stripe key detected in generated code",
       "Potential AWS access key detected in generated code",
       "Potential GitHub token detected in generated code",
       "Potential Bearer token detected in generated code"] := by
  have h := scan_sublist code
  have he : secPatterns.map (fun p => findingMessage p.2) =
      ["Potential API key detected in generated code",
       "Potential Secret detected in generated code",
       "Potential Password detected in generated code",
       "Potential Stripe key detected in generated code",
       "Potential AWS access key detected in generated code",
       "Potential GitHub token detected in generated code",
       "Potential Bearer token detected in generated code"] := by decide
  rw [he] at h
  exact h

/-- C3: `isValidFilePath` returns true exactly under the claimed
characterization (extension or config allow-list, no `..`, no leading
slash, no drive prefix, length at most 200, only allowed characters), and
the four reference examples evaluate as claimed.  As a total Lean
function it also trivially never throws. -/
theorem c3_path_validator :
    (∀ p, isValidFilePath p = true ↔ isValidFilePathSpec p) ∧
    isValidFilePath ("../../etc/passwd".toList) = false ∧
    isValidFilePath ("src/App.tsx".toList) = true ∧
    isValidFilePath ("README".toList) = true ∧
    isValidFilePath ("C:\\secrets.txt".toList) = false := by
  refine ⟨?_, by decide, by decide, by decide, by decide⟩
  intro p
  rw [isValidFilePath_iff_parts]
  unfold isValidFilePathSpec
  constructor
  · rintro ⟨h1, h2, h3, h4, h5, -, h7⟩
    refine ⟨?_, ?_, isValidFilePath_head_ne p h3, ?_, h5, ?_⟩
    · rcases h1 with h1 | h1
      · exact Or.inl ((hasExtension_iff p).mp h1)
      · refine Or.inr ?_
        unfold isConfigFile at h1
        rw [List.any_eq_true] at h1
        obtain ⟨n, hn, hci⟩ := h1
        exact ⟨n, hn, hci⟩
    · intro hinf
      have hcs := (listContainsSub_iff _ _).mpr hinf
      rw [h2] at hcs
      cases hcs
    · rintro ⟨c, rest, rfl, hc⟩
      simp [isDrivePrefix, hc] at h4
    · intro c hc
      have hchar := h7 c hc
      simp only [isAllowedPathChar, isWordChar, Bool.or_eq_true,
        decide_eq_true_eq] at hchar
      tauto
  · rintro ⟨h1, h2, h3, h4, h5, h6⟩
    have hall : ∀ m ∈ configNames, m ≠ [] := by decide
    have hne : p ≠ [] := by
      rcases h1 with ⟨a, b, hp, hb, -⟩ | ⟨n, hn, hci⟩
      · rw [hp]; simp
      · have hmap : p.map Char.toLower = n.map Char.toLower := by
          simpa [ciEq] using hci
        have hl : p.length = n.length := by
          simpa using congrArg List.length hmap
        intro hp0
        rw [hp0] at hl
        simp at hl
        exact hall n hn (by
          first
          | exact hl
          | exact List.length_eq_zero.mp hl.symm)
    refine ⟨?_, ?_, ?_, ?_, h5, hne, ?_⟩
    · rcases h1 with h1 | ⟨n, hn, hci⟩
      · exact Or.inl ((hasExtension_iff p).mpr h1)
      · refine Or.inr ?_
        unfold isConfigFile
        rw [List.any_eq_true]
        exact ⟨n, hn, hci⟩
    · cases hcs : listContainsSub ("..".toList) p with
      | false => rfl
      | true => exact absurd ((listContainsSub_iff _ _).mp hcs) h2
    · cases p with
      | nil => rfl
      | cons c cs =>
        have hcne : ¬ ('/' = c) := by
          intro hc
          rw [← hc] at h3
          exact h3 rfl
        have hsl : ("/".toList) = ['/'] := by decide
        rw [hsl]
        simp [listStartsWith, hcne]
    · cases p with
      | nil => rfl
      | cons c1 rest1 =>
        cases rest1 with
        | nil => rfl
        | cons c2 rest2 =>
          by_cases hc2 : c2 = ':'
          · subst hc2
            by_cases ha : c1.isAlpha = true
            · exact absurd ⟨c1, rest2, rfl, ha⟩ h4
            · simp [isDrivePrefix, ha]
          · simp [isDrivePrefix, hc2]
    · intro c hc
      have hchar := h6 c hc
      simp only [isAllowedPathChar, isWordChar, Bool.or_eq_true,
        decide_eq_true_eq]
      tauto

end CodingApp
